import Mathlib

/-!
Verification development for the Reely caption pipeline
(`backend/app/services/caption_renderer.py`,
`backend/app/services/video_processor.py`,
`backend/app/models/schemas.py`).

Python strings are modelled as `List Char`; Python `str.split()` (split on
whitespace, dropping empty fields), `' '.join`, `str.lower`, `str.lstrip('#')`
and slicing are modelled below.  Machine floats in the timing splitter are
modelled as rationals; font width measurement (`font.getbbox`) is an arbitrary
function parameter `measure : List Char → Int`.
-/

namespace Reely

/-- Whitespace test used by Python's `str.split()` (ASCII whitespace:
space, tab, newline, carriage return, vertical tab, form feed). -/
def isPySpace (c : Char) : Bool :=
  c = ' ' || c = '\t' || c = '\n' || c = '\r' || c = '\x0b' || c = '\x0c'

/-- Accumulator worker for `pySplit`: `acc` holds the characters of the word
currently being read, in reverse order. -/
def splitWsAux (acc : List Char) : List Char → List (List Char)
  | [] => if acc = [] then [] else [acc.reverse]
  | c :: cs =>
    if isPySpace c then
      if acc = [] then splitWsAux [] cs else acc.reverse :: splitWsAux [] cs
    else splitWsAux (c :: acc) cs

/-- Models Python `s.split()`: split on runs of whitespace, dropping empty
fields. -/
def pySplit (s : List Char) : List (List Char) := splitWsAux [] s

/-- Models Python `' '.join(ws)`. -/
def pyJoin : List (List Char) → List Char
  | [] => []
  | [w] => w
  | w :: ws => w ++ ' ' :: pyJoin ws

/-- Models Python `str.lower()` on one character (ASCII range; every string
the claims involve is ASCII). -/
def pyLowerChar (c : Char) : Char :=
  if 'A' ≤ c ∧ c ≤ 'Z' then Char.ofNat (c.toNat + 32) else c

/-- Models Python `s.lower()`. -/
def pyLower (s : List Char) : List Char := s.map pyLowerChar

/-- Models Python `s.lstrip('#')`: drop every leading `'#'`. -/
def lstripHash (s : List Char) : List Char := s.dropWhile (· = '#')

/-- Models the Python slice `s[i:i+2]` (clamped at the end of the string). -/
def pySlice2 (s : List Char) (i : Nat) : List Char := (s.drop i).take 2

/-- Test for a hexadecimal digit as accepted by Python's `int(_, 16)`. -/
def isHexDigitB (c : Char) : Bool :=
  ('0' ≤ c && c ≤ '9') || ('a' ≤ c && c ≤ 'f') || ('A' ≤ c && c ≤ 'F')

/-- Numeric value of a hexadecimal digit (0 on non-digits; only applied to
digits). -/
def hexDigitVal (c : Char) : Nat :=
  if c = '0' then 0 else if c = '1' then 1 else if c = '2' then 2
  else if c = '3' then 3 else if c = '4' then 4 else if c = '5' then 5
  else if c = '6' then 6 else if c = '7' then 7 else if c = '8' then 8
  else if c = '9' then 9
  else if c = 'a' ∨ c = 'A' then 10 else if c = 'b' ∨ c = 'B' then 11
  else if c = 'c' ∨ c = 'C' then 12 else if c = 'd' ∨ c = 'D' then 13
  else if c = 'e' ∨ c = 'E' then 14 else if c = 'f' ∨ c = 'F' then 15
  else 0

/-- Value of a string of hexadecimal digits, most significant first. -/
def hexVal (ds : List Char) : Nat := ds.foldl (fun a c => 16 * a + hexDigitVal c) 0

/-- Models Python `int(s, 16)` on the at-most-two-character strings produced
by the colour slices: surrounding whitespace is stripped, an optional single
sign is allowed, and the remainder must be a non-empty run of hex digits.
(`0x` prefixes and `_` separators need at least three characters to form a
valid parse, so they cannot occur here.)  `none` models `ValueError`. -/
def pyIntHex (s : List Char) : Option Int :=
  let t := ((s.dropWhile isPySpace).reverse.dropWhile isPySpace).reverse
  match t with
  | [] => none
  | c :: rest =>
    let p : Int × List Char :=
      if c = '+' then (1, rest) else if c = '-' then (-1, rest) else (1, c :: rest)
    if p.2 ≠ [] ∧ p.2.all isHexDigitB then some (p.1 * (hexVal p.2 : Int)) else none

/-- RGB triple as produced by `_hex_to_rgb`. -/
abbrev RGB := Int × Int × Int

/-- Embeds `CaptionRenderer._hex_to_rgb` (caption_renderer.py lines 104-111):
strip leading `'#'`, parse the 2-character slices at offsets 0, 2, 4 with
`int(_, 16)`; any `ValueError` is caught and yields white `(255,255,255)`. -/
def hex_to_rgb (hex_color : List Char) : RGB :=
  let h := lstripHash hex_color
  match pyIntHex (pySlice2 h 0), pyIntHex (pySlice2 h 2), pyIntHex (pySlice2 h 4) with
  | some r, some g, some b => (r, g, b)
  | _, _, _ => (255, 255, 255)

/-- Value of the pair of hexadecimal digits of `h` at offsets `i, i+1`; the
specification-side meaning of one channel of "its (R,G,B) triple". -/
def hexPair (h : List Char) (i : Nat) : Nat :=
  16 * hexDigitVal (h.getD i '0') + hexDigitVal (h.getD (i + 1) '0')

/-- Embeds the `CaptionStyle` pydantic model (schemas.py lines 18-26); the
numeric fields are Python `int`s. -/
structure CaptionStyle where
  font_type : List Char
  font_size : Int
  font_color : List Char
  stroke_color : List Char
  stroke_width : Int
  padding : Int
  position : List Char
  deriving DecidableEq

/-- Embeds the pydantic field constraints of `CaptionStyle` (schemas.py lines
18-26): `font_size` has `ge=8, le=72`, `stroke_width` has `ge=0, le=10`,
`padding` has `ge=0, le=50`; `font_type`, `font_color`, `stroke_color` and
`position` are plain `str` fields carrying no constraint.  Construction
succeeds exactly when this returns `true`. -/
def captionStyleValid (s : CaptionStyle) : Bool :=
  (8 ≤ s.font_size && s.font_size ≤ 72) &&
  (0 ≤ s.stroke_width && s.stroke_width ≤ 10) &&
  (0 ≤ s.padding && s.padding ≤ 50)

/-- Embeds the `CaptionSegment` pydantic model (schemas.py lines 43-48);
float times are modelled as rationals. -/
structure CaptionSegment where
  start_time : ℚ
  end_time : ℚ
  text : List Char
  deriving DecidableEq

/-- Word-timing dict `{"word": ..., "start": ..., "end": ...}` built by
`_split_segment_into_words`; the `end` key is named `stop` (`end` is a
reserved word). -/
structure WordTiming where
  word : List Char
  start : ℚ
  stop : ℚ
  deriving DecidableEq, Inhabited

/-- Embeds `VideoProcessor._split_segment_into_words` (video_processor.py
lines 215-241).  When the text splits into zero words,
`segment_duration / word_count` raises `ZeroDivisionError`, which the
`except` branch turns into `[]`; that is the `word_count = 0` branch here. -/
def split_segment_into_words (segment : CaptionSegment) : List WordTiming :=
  let words := pySplit segment.text
  let word_count := words.length
  if word_count = 0 then []
  else
    let segment_duration := segment.end_time - segment.start_time
    let time_per_word := segment_duration / (word_count : ℚ)
    words.enum.map (fun p =>
      { word := p.2
        start := segment.start_time + (p.1 : ℚ) * time_per_word
        stop := segment.start_time + ((p.1 : ℚ) + 1) * time_per_word })

/-- Worker for `wrap_text`, mirroring the loop of `CaptionRenderer._wrap_text`
(caption_renderer.py lines 116-138): `current_line` is the list of words of
the line under construction, the remaining words are consumed in order. -/
def wrapAux (measure : List Char → Int) (max_width : Int) :
    List (List Char) → List (List Char) → List (List Char)
  | current_line, [] => if current_line = [] then [] else [pyJoin current_line]
  | current_line, word :: rest =>
    let test_line := pyJoin (current_line ++ [word])
    if measure test_line ≤ max_width then
      wrapAux measure max_width (current_line ++ [word]) rest
    else
      if current_line ≠ [] then
        pyJoin current_line :: wrapAux measure max_width [word] rest
      else
        word :: wrapAux measure max_width [] rest

/-- Embeds `CaptionRenderer._wrap_text` (caption_renderer.py lines 113-142);
`measure` models `font.getbbox(line)[2] - font.getbbox(line)[0]`.  The
`except` branch of the source is unreachable in this pure model. -/
def wrap_text (text : List Char) (measure : List Char → Int) (max_width : Int) :
    List (List Char) :=
  wrapAux measure max_width [] (pySplit text)

/-- Modelled from the specification's words (section 4.1): the greedy-fill
reference algorithm, carrying the current line as an optional string, used to
state the refinement claim about `wrap_text`.  The current line is extended
with `current + " " + word` while that still measures within `max_width`;
otherwise the current line is closed and a new one starts with `word`; a
single word whose own width exceeds `max_width` is emitted as its own line
unmodified. -/
def greedyFillAux (measure : List Char → Int) (max_width : Int) :
    Option (List Char) → List (List Char) → List (List Char)
  | none, [] => []
  | some l, [] => [l]
  | none, w :: rest =>
    if measure w ≤ max_width then greedyFillAux measure max_width (some w) rest
    else w :: greedyFillAux measure max_width none rest
  | some l, w :: rest =>
    if measure (l ++ ' ' :: w) ≤ max_width then
      greedyFillAux measure max_width (some (l ++ ' ' :: w)) rest
    else l :: greedyFillAux measure max_width (some w) rest

/-- Modelled from the specification's words (section 4.1): top level of the
greedy-fill reference algorithm. -/
def greedyFill (text : List Char) (measure : List Char → Int) (max_width : Int) :
    List (List Char) :=
  greedyFillAux measure max_width none (pySplit text)

/-- Embeds `CaptionRenderer.get_caption_position` (caption_renderer.py lines
286-304).  Python `//` is floor division, which for the positive divisor 2
agrees with Lean's Euclidean `Int` division used here.  The `except` branch
of the source is unreachable (`str.lower` raises nothing). -/
def get_caption_position (video_height caption_height : Int) (position : List Char)
    (padding : Int) : Int :=
  if pyLower position = "top".toList then padding
  else if pyLower position = "center".toList then (video_height - caption_height) / 2
  else video_height - caption_height - padding

/-- One rendering primitive: a `draw.text` call of `word` at `(x, y)` with
colour `color`; `pass` records whether it belongs to the outline loop or is
the final fill draw. -/
inductive DrawPass where
  | outline
  | fill
  deriving DecidableEq

/-- A recorded `draw.text` call. -/
structure DrawOp where
  pass : DrawPass
  word : List Char
  x : Int
  y : Int
  color : RGB
  deriving DecidableEq

/-- Integer offsets visited by the stroke loops
`for dx in range(-sw, sw+1): for dy in range(-sw, sw+1)` that satisfy
`dx*dx + dy*dy <= sw*sw`, in the source's iteration order. -/
def strokeOffsets (sw : Nat) : List (Int × Int) :=
  (List.range (2 * sw + 1)).flatMap (fun i =>
    (List.range (2 * sw + 1)).filterMap (fun j =>
      let dx : Int := (i : Int) - (sw : Int)
      let dy : Int := (j : Int) - (sw : Int)
      if dx * dx + dy * dy ≤ (sw : Int) * (sw : Int) then some (dx, dy) else none))

/-- Embeds the per-line drawing of `CaptionRenderer.create_caption_image`
(caption_renderer.py lines 177-202): when `stroke_width > 0`, one outline
draw per in-disc offset in the stroke colour, then the main draw at
`(x_offset, y_offset)` in the fill colour.  `stroke_width.toNat` is the
source's non-negative `int` (a validated style has `stroke_width ≥ 0`; for
`stroke_width ≤ 0` the guard skips the loop either way). -/
def create_caption_image_line_ops (stroke_width : Int) (stroke_color font_color : RGB)
    (x_offset y_offset : Int) (line : List Char) : List DrawOp :=
  (if 0 < stroke_width then
    (strokeOffsets stroke_width.toNat).map
      (fun d => ⟨DrawPass.outline, line, x_offset + d.1, y_offset + d.2, stroke_color⟩)
  else []) ++ [⟨DrawPass.fill, line, x_offset, y_offset, font_color⟩]

/-- Inner word loop of `CaptionRenderer.create_word_highlighted_caption`
(caption_renderer.py lines 249-276): for each word of a line, choose
`word_color` by case-insensitive comparison with `current_word`, choose the
outline colour by the `word_color == font_color` test, emit the outline draws
then the main draw, and advance the x cursor by the word's measured width
plus 4. -/
def highlightWordOps (measure : List Char → Int) (stroke_width : Int)
    (font_color stroke_color highlight_rgb : RGB) (current_word : List Char)
    (y_offset : Int) : Int → List (List Char) → List DrawOp
  | _, [] => []
  | x_offset, word :: ws =>
    let word_color := if pyLower word = pyLower current_word then highlight_rgb else font_color
    let stroke_col := if word_color = font_color then stroke_color else font_color
    ((if 0 < stroke_width then
        (strokeOffsets stroke_width.toNat).map
          (fun d => ⟨DrawPass.outline, word, x_offset + d.1, y_offset + d.2, stroke_col⟩)
      else []) ++ [⟨DrawPass.fill, word, x_offset, y_offset, word_color⟩])
      ++ highlightWordOps measure stroke_width font_color stroke_color highlight_rgb
          current_word y_offset (x_offset + measure word + 4) ws

/-- Outer line loop of `create_word_highlighted_caption` (caption_renderer.py
lines 245-278): each line is split into words, the x cursor restarts at
`style.padding`, and `y_offset` advances by `line_height` per line. -/
def highlightLineOps (measure : List Char → Int) (stroke_width : Int)
    (font_color stroke_color highlight_rgb : RGB) (current_word : List Char)
    (padding line_height : Int) : Int → List (List Char) → List DrawOp
  | _, [] => []
  | y_offset, line :: rest =>
    highlightWordOps measure stroke_width font_color stroke_color highlight_rgb
        current_word y_offset padding (pySplit line)
      ++ highlightLineOps measure stroke_width font_color stroke_color highlight_rgb
          current_word padding line_height (y_offset + line_height) rest

/-- Embeds the drawing performed by
`CaptionRenderer.create_word_highlighted_caption` (caption_renderer.py lines
210-280) as the ordered list of its `draw.text` calls.  `max_width` models
`int(video_width * 0.8)` as `video_width * 4 / 5` (the float product may
round differently for some widths; no claim depends on this value). -/
def create_word_highlighted_caption_ops (measure : List Char → Int)
    (text current_word : List Char) (video_width : Int) (style : CaptionStyle)
    (highlight_color : List Char) : List DrawOp :=
  let max_width := video_width * 4 / 5
  let lines := wrap_text text measure max_width
  let line_height := style.font_size + 4
  let font_color := hex_to_rgb style.font_color
  let stroke_color := hex_to_rgb style.stroke_color
  let highlight_rgb := hex_to_rgb highlight_color
  highlightLineOps measure style.stroke_width font_color stroke_color
    highlight_rgb current_word style.padding line_height style.padding lines

/-- Property of a word produced by `pySplit`: non-empty and free of
whitespace. -/
def GoodWord (w : List Char) : Prop := w ≠ [] ∧ ∀ c ∈ w, isPySpace c = false

/-! Lemmas about the whitespace splitter and the joiner. -/

theorem splitWsAux_words (l : List Char) :
    ∀ acc : List Char, (∀ c ∈ acc, isPySpace c = false) →
      ∀ w ∈ splitWsAux acc l, w ≠ [] ∧ ∀ c ∈ w, isPySpace c = false := by
  induction l with
  | nil =>
    intro acc hacc w hw
    simp only [splitWsAux] at hw
    split at hw
    · simp at hw
    · rename_i hne
      simp only [List.mem_singleton] at hw
      subst hw
      refine ⟨by simpa using hne, ?_⟩
      intro c hc
      exact hacc c (List.mem_reverse.mp hc)
  | cons c cs ih =>
    intro acc hacc w hw
    simp only [splitWsAux] at hw
    by_cases hsp : isPySpace c
    · rw [if_pos hsp] at hw
      split at hw
      · exact ih [] (by simp) w hw
      · rename_i hne
        rcases List.mem_cons.mp hw with h | h
        · subst h
          refine ⟨by simpa using hne, ?_⟩
          intro a ha
          exact hacc a (List.mem_reverse.mp ha)
        · exact ih [] (by simp) w h
    · rw [if_neg hsp] at hw
      refine ih (c :: acc) ?_ w hw
      intro a ha
      rcases List.mem_cons.mp ha with h | h
      · subst h; simpa using hsp
      · exact hacc a h

theorem pySplit_words (s : List Char) :
    ∀ w ∈ pySplit s, w ≠ [] ∧ ∀ c ∈ w, isPySpace c = false :=
  splitWsAux_words s [] (by simp)

theorem splitWsAux_word_consume (w : List Char) (hw : ∀ c ∈ w, isPySpace c = false) :
    ∀ (acc r : List Char), splitWsAux acc (w ++ r) = splitWsAux (w.reverse ++ acc) r := by
  induction w with
  | nil => intro acc r; simp
  | cons c cs ih =>
    intro acc r
    have hc : isPySpace c = false := hw c (by simp)
    simp only [List.cons_append, splitWsAux, hc, Bool.false_eq_true, if_false]
    rw [show cs.append r = cs ++ r from rfl,
      ih (fun a ha => hw a (by simp [ha])) (c :: acc) r]
    simp

theorem pySplit_single (w : List Char) (hne : w ≠ [])
    (hw : ∀ c ∈ w, isPySpace c = false) : pySplit w = [w] := by
  have := splitWsAux_word_consume w hw [] []
  simp only [List.append_nil] at this
  simp only [pySplit, this, splitWsAux]
  rw [if_neg (by simpa using hne)]
  simp

theorem pySplit_join (ws : List (List Char))
    (h : ∀ w ∈ ws, w ≠ [] ∧ ∀ c ∈ w, isPySpace c = false) :
    pySplit (pyJoin ws) = ws := by
  induction ws with
  | nil => simp [pySplit, pyJoin, splitWsAux]
  | cons w ws ih =>
    rcases ws with _ | ⟨w', ws'⟩
    · exact pySplit_single w (h w (by simp)).1 (h w (by simp)).2
    · have hw := h w (by simp)
      have hjoin : pyJoin (w :: w' :: ws') = w ++ ' ' :: pyJoin (w' :: ws') := rfl
      rw [hjoin]
      unfold pySplit
      rw [splitWsAux_word_consume w hw.2 [] (' ' :: pyJoin (w' :: ws'))]
      simp only [List.append_nil, splitWsAux]
      rw [if_pos (by decide)]
      rw [if_neg (by simpa using hw.1)]
      simp only [List.reverse_reverse]
      rw [show splitWsAux [] (pyJoin (w' :: ws')) = pySplit (pyJoin (w' :: ws')) from rfl]
      rw [ih (fun a ha => h a (by simp [ha]))]

theorem pyJoin_append_single (l : List (List Char)) (w : List Char) (h : l ≠ []) :
    pyJoin (l ++ [w]) = pyJoin l ++ ' ' :: w := by
  induction l with
  | nil => exact absurd rfl h
  | cons a l ih =>
    rcases l with _ | ⟨b, l'⟩
    · rfl
    · have h1 : pyJoin ((a :: b :: l') ++ [w]) = a ++ ' ' :: pyJoin ((b :: l') ++ [w]) := rfl
      have h2 : pyJoin (a :: b :: l') = a ++ ' ' :: pyJoin (b :: l') := rfl
      rw [h1, ih (by simp), h2]
      simp


/-! Lemmas about the wrapping loop. -/

theorem wrapAux_eq_greedyFillAux (measure : List Char → Int) (max_width : Int)
    (rest : List (List Char)) :
    ∀ current : List (List Char),
      wrapAux measure max_width current rest
        = greedyFillAux measure max_width
            (if current = [] then none else some (pyJoin current)) rest := by
  induction rest with
  | nil =>
    intro current
    rcases current with _ | ⟨a, cl⟩ <;> simp [wrapAux, greedyFillAux]
  | cons w rest ih =>
    intro current
    rcases current with _ | ⟨a, cl⟩
    · simp only [wrapAux, greedyFillAux, if_pos rfl, List.nil_append]
      have hj : pyJoin [w] = w := rfl
      rw [hj]
      by_cases hfit : measure w ≤ max_width
      · simp only [if_pos hfit]
        have h1 := ih [w]
        rw [if_neg (by simp)] at h1
        rw [h1, hj]
      · simp only [if_neg hfit, ne_eq, not_true_eq_false, if_false, reduceIte]
        have h0 := ih []
        rw [if_pos rfl] at h0
        rw [h0]
    · simp only [wrapAux, greedyFillAux, if_neg (by simp : ¬(a :: cl) = [])]
      have hj : pyJoin ((a :: cl) ++ [w]) = pyJoin (a :: cl) ++ ' ' :: w :=
        pyJoin_append_single _ _ (by simp)
      rw [hj]
      by_cases hfit : measure (pyJoin (a :: cl) ++ ' ' :: w) ≤ max_width
      · simp only [if_pos hfit]
        have h1 := ih ((a :: cl) ++ [w])
        rw [if_neg (by simp), hj] at h1
        rw [h1]
      · simp only [if_neg hfit, ne_eq, not_false_eq_true, if_true, reduceIte]
        have h1 := ih [w]
        rw [if_neg (by simp)] at h1
        rw [h1]
        rfl

theorem wrapAux_flat_words (measure : List Char → Int) (max_width : Int)
    (rest : List (List Char)) :
    ∀ current : List (List Char),
      (∀ w ∈ current ++ rest, GoodWord w) →
      (wrapAux measure max_width current rest).flatMap pySplit = current ++ rest := by
  induction rest with
  | nil =>
    intro current h
    rcases current with _ | ⟨a, cl⟩
    · simp [wrapAux]
    · simp only [wrapAux, if_neg (by simp : ¬(a :: cl) = [])]
      rw [List.flatMap_cons, List.flatMap_nil, List.append_nil, List.append_nil]
      exact pySplit_join _ (fun w hw => h w (by simpa using hw))
  | cons w rest ih =>
    intro current h
    simp only [wrapAux]
    by_cases hfit : measure (pyJoin (current ++ [w])) ≤ max_width
    · rw [if_pos hfit, ih (current ++ [w])
        (by intro a ha; refine h a ?_; simp only [List.mem_append, List.mem_cons] at ha ⊢; tauto)]
      simp
    · rw [if_neg hfit]
      by_cases hcur : current = []
      · subst hcur
        simp only [ne_eq, not_true_eq_false, if_false, reduceIte]
        rw [List.flatMap_cons]
        have hw : GoodWord w := h w (by simp)
        rw [pySplit_single w hw.1 hw.2,
          ih [] (by intro a ha; refine h a ?_; simp only [List.mem_append, List.mem_cons] at ha ⊢; tauto)]
        simp
      · rw [if_pos hcur]
        rw [List.flatMap_cons]
        have hcurj : pySplit (pyJoin current) = current :=
          pySplit_join _ (fun a ha => h a (by simp [ha]))
        rw [hcurj,
          ih [w] (by intro a ha; refine h a ?_; simp only [List.mem_append, List.mem_cons] at ha ⊢; tauto)]
        simp

theorem wrapAux_line_fits (measure : List Char → Int) (max_width : Int)
    (rest : List (List Char)) :
    ∀ current : List (List Char),
      (∀ w ∈ current ++ rest, GoodWord w) →
      (current = [] ∨ (∃ w, current = [w]) ∨ measure (pyJoin current) ≤ max_width) →
      ∀ line ∈ wrapAux measure max_width current rest,
        measure line ≤ max_width ∨ (pySplit line).length = 1 := by
  induction rest with
  | nil =>
    intro current h hinv line hline
    rcases current with _ | ⟨a, cl⟩
    · simp [wrapAux] at hline
    · simp only [wrapAux, if_neg (by simp : ¬(a :: cl) = []), List.mem_singleton] at hline
      subst hline
      rcases hinv with h0 | ⟨w, hw⟩ | hm
      · simp at h0
      · right
        have hprops : GoodWord w := by rw [hw] at h; exact h w (by simp)
        rw [hw, show pyJoin [w] = w from rfl, pySplit_single w hprops.1 hprops.2]
        rfl
      · exact Or.inl hm
  | cons w rest ih =>
    intro current h hinv line hline
    simp only [wrapAux] at hline
    by_cases hfit : measure (pyJoin (current ++ [w])) ≤ max_width
    · rw [if_pos hfit] at hline
      refine ih (current ++ [w])
        (by intro a ha; refine h a ?_; simp only [List.mem_append, List.mem_cons] at ha ⊢; tauto)
        (Or.inr (Or.inr hfit)) line hline
    · rw [if_neg hfit] at hline
      by_cases hcur : current = []
      · subst hcur
        simp only [ne_eq, not_true_eq_false, if_false, reduceIte, List.mem_cons] at hline
        rcases hline with rfl | hline
        · right
          have hw : GoodWord line := h line (by simp)
          rw [pySplit_single line hw.1 hw.2]
          rfl
        · exact ih []
            (by intro a ha; refine h a ?_; simp only [List.mem_append, List.mem_cons] at ha ⊢; tauto)
            (Or.inl rfl) line hline
      · rw [if_pos hcur, List.mem_cons] at hline
        rcases hline with rfl | hline
        · rcases hinv with h0 | ⟨v, hv⟩ | hm
          · exact absurd h0 hcur
          · right
            have hprops : GoodWord v := by rw [hv] at h; exact h v (by simp)
            rw [hv, show pyJoin [v] = v from rfl, pySplit_single v hprops.1 hprops.2]
            rfl
          · exact Or.inl hm
        · exact ih [w]
            (by intro a ha; refine h a ?_; simp only [List.mem_append, List.mem_cons] at ha ⊢; tauto)
            (Or.inr (Or.inl ⟨w, rfl⟩)) line hline

/-! Lemmas about the hexadecimal parser. -/

theorem hexDigit_not_space (c : Char) (h : isHexDigitB c = true) : isPySpace c = false := by
  by_contra hsp
  rw [Bool.not_eq_false] at hsp
  simp only [isPySpace, Bool.or_eq_true, decide_eq_true_eq] at hsp
  rcases hsp with ((((rfl | rfl) | rfl) | rfl) | rfl) | rfl <;> exact absurd h (by decide)

theorem hexDigit_not_plus (c : Char) (h : isHexDigitB c = true) : c ≠ '+' := by
  rintro rfl
  exact absurd h (by decide)

theorem hexDigit_not_minus (c : Char) (h : isHexDigitB c = true) : c ≠ '-' := by
  rintro rfl
  exact absurd h (by decide)

theorem pyIntHex_of_hexdigits (ds : List Char) (hne : ds ≠ [])
    (hhex : ∀ c ∈ ds, isHexDigitB c = true) :
    pyIntHex ds = some ((hexVal ds : Int)) := by
  rcases ds with _ | ⟨c, cs⟩
  · exact absurd rfl hne
  have hc := hhex c (by simp)
  have hstrip1 : (c :: cs).dropWhile isPySpace = c :: cs := by
    rw [List.dropWhile_cons_of_neg]
    simp [hexDigit_not_space c hc]
  have hstrip2 : (c :: cs).reverse.dropWhile isPySpace = (c :: cs).reverse := by
    rcases hrev : (c :: cs).reverse with _ | ⟨d, rest⟩
    · simp at hrev
    · rw [List.dropWhile_cons_of_neg]
      have hd : d ∈ c :: cs := by rw [← List.mem_reverse, hrev]; simp
      simp [hexDigit_not_space d (hhex d hd)]
  have hcs : ∀ x ∈ cs, isHexDigitB x = true := fun x hx => hhex x (by simp [hx])
  simp only [pyIntHex]
  rw [hstrip1, hstrip2, List.reverse_reverse]
  simp [hexDigit_not_plus c hc, hexDigit_not_minus c hc, List.all_eq_true, hc, hcs]
  exact hcs

theorem exists_six {α : Type} (l : List α) (h : l.length = 6) :
    ∃ a b c d e f, l = [a, b, c, d, e, f] := by
  rcases l with _ | ⟨a, l⟩; · simp at h
  rcases l with _ | ⟨b, l⟩; · simp at h
  rcases l with _ | ⟨c, l⟩; · simp at h
  rcases l with _ | ⟨d, l⟩; · simp at h
  rcases l with _ | ⟨e, l⟩; · simp at h
  rcases l with _ | ⟨f, l⟩; · simp at h
  rcases l with _ | ⟨g, l⟩
  · exact ⟨a, b, c, d, e, f, rfl⟩
  · simp at h

/-! Lemmas about the stroke-offset loops. -/

theorem mem_strokeOffsets (sw : Nat) (dx dy : Int) :
    (dx, dy) ∈ strokeOffsets sw ↔ dx * dx + dy * dy ≤ (sw : Int) * (sw : Int) := by
  simp only [strokeOffsets, List.mem_flatMap, List.mem_filterMap, List.mem_range,
    Option.ite_none_right_eq_some, Option.some.injEq, Prod.mk.injEq, List.pure_def,
    List.bind_eq_flatMap, List.mem_map, List.mem_singleton]
  constructor
  · rintro ⟨i, hi, x, ⟨j, hj, rfl⟩, hcond, h1, h2⟩
    subst h1; subst h2; exact hcond
  · intro h
    have hsw : (0 : Int) ≤ (sw : Int) := Int.natCast_nonneg sw
    have hdx : -(sw : Int) ≤ dx ∧ dx ≤ (sw : Int) := by
      constructor
      · by_contra hc
        push_neg at hc
        nlinarith [mul_self_nonneg dy]
      · by_contra hc
        push_neg at hc
        nlinarith [mul_self_nonneg dy]
    have hdy : -(sw : Int) ≤ dy ∧ dy ≤ (sw : Int) := by
      constructor
      · by_contra hc
        push_neg at hc
        nlinarith [mul_self_nonneg dx]
      · by_contra hc
        push_neg at hc
        nlinarith [mul_self_nonneg dx]
    have e1 : (((dx + (sw : Int)).toNat : Nat) : Int) - (sw : Int) = dx := by omega
    have e2 : (((dy + (sw : Int)).toNat : Nat) : Int) - (sw : Int) = dy := by omega
    refine ⟨(dx + (sw : Int)).toNat, by omega, ((dy + (sw : Int)).toNat : Int),
      ⟨(dy + (sw : Int)).toNat, by omega, rfl⟩, ?_, e1, e2⟩
    rw [e1, e2]
    exact h

/-! Lemmas about the word-highlight drawing loops. -/

theorem highlightWordOps_color (measure : List Char → Int) (sw : Int)
    (fc sc hc : RGB) (cur : List Char) (y : Int) (ws : List (List Char)) :
    ∀ x : Int, ∀ op ∈ highlightWordOps measure sw fc sc hc cur y x ws,
      (op.pass = DrawPass.fill →
        op.color = (if pyLower op.word = pyLower cur then hc else fc)) ∧
      (op.pass = DrawPass.outline →
        op.color = (if pyLower op.word = pyLower cur ∧ hc ≠ fc then fc else sc)) := by
  induction ws with
  | nil => intro x op hop; simp [highlightWordOps] at hop
  | cons w ws ih =>
    intro x op hop
    simp only [highlightWordOps, List.mem_append] at hop
    rcases hop with (hop | hop) | hop
    · by_cases hsw : 0 < sw
      · rw [if_pos hsw] at hop
        obtain ⟨d, _, rfl⟩ := List.mem_map.mp hop
        refine ⟨fun hpass => by simp at hpass, fun _ => ?_⟩
        simp only []
        by_cases heq : pyLower w = pyLower cur
        · by_cases hfc : hc = fc
          · rw [if_pos heq, if_pos hfc, if_neg (by simp [heq, hfc])]
          · rw [if_pos heq, if_neg (by simpa [heq] using hfc), if_pos ⟨heq, hfc⟩]
        · rw [if_neg heq, if_pos rfl, if_neg (by simp [heq])]
      · rw [if_neg hsw] at hop
        simp at hop
    · rw [List.mem_singleton] at hop
      subst hop
      exact ⟨fun _ => rfl, fun hpass => by simp at hpass⟩
    · exact ih (x + measure w + 4) op hop

theorem highlightWordOps_fill_words (measure : List Char → Int) (sw : Int)
    (fc sc hc : RGB) (cur : List Char) (y : Int) (ws : List (List Char)) :
    ∀ x : Int,
      ((highlightWordOps measure sw fc sc hc cur y x ws).filter
        (fun op => op.pass == DrawPass.fill)).map DrawOp.word = ws := by
  induction ws with
  | nil => intro x; simp [highlightWordOps]
  | cons w ws ih =>
    intro x
    simp only [highlightWordOps, List.filter_append, List.map_append]
    have houtline :
        ((if 0 < sw then
            (strokeOffsets sw.toNat).map
              (fun d => (⟨DrawPass.outline, w, x + d.1, y + d.2,
                if (if pyLower w = pyLower cur then hc else fc) = fc then sc else fc⟩ : DrawOp))
          else []).filter (fun op => op.pass == DrawPass.fill)) = [] := by
      rw [List.filter_eq_nil_iff]
      intro op hop
      split at hop
      · obtain ⟨d, _, rfl⟩ := List.mem_map.mp hop
        simp
      · simp at hop
    rw [houtline, ih (x + measure w + 4)]
    simp

theorem highlightLineOps_color (measure : List Char → Int) (sw : Int)
    (fc sc hc : RGB) (cur : List Char) (padding line_height : Int)
    (lines : List (List Char)) :
    ∀ y : Int,
      ∀ op ∈ highlightLineOps measure sw fc sc hc cur padding line_height y lines,
        (op.pass = DrawPass.fill →
          op.color = (if pyLower op.word = pyLower cur then hc else fc)) ∧
        (op.pass = DrawPass.outline →
          op.color = (if pyLower op.word = pyLower cur ∧ hc ≠ fc then fc else sc)) := by
  induction lines with
  | nil => intro y op hop; simp [highlightLineOps] at hop
  | cons line lines ih =>
    intro y op hop
    simp only [highlightLineOps, List.mem_append] at hop
    rcases hop with hop | hop
    · exact highlightWordOps_color measure sw fc sc hc cur y (pySplit line) padding op hop
    · exact ih (y + line_height) op hop

theorem highlightLineOps_fill_words (measure : List Char → Int) (sw : Int)
    (fc sc hc : RGB) (cur : List Char) (padding line_height : Int)
    (lines : List (List Char)) :
    ∀ y : Int,
      ((highlightLineOps measure sw fc sc hc cur padding line_height y lines).filter
        (fun op => op.pass == DrawPass.fill)).map DrawOp.word
        = lines.flatMap pySplit := by
  induction lines with
  | nil => intro y; simp [highlightLineOps]
  | cons line lines ih =>
    intro y
    simp only [highlightLineOps, List.filter_append, List.map_append, List.flatMap_cons]
    rw [highlightWordOps_fill_words, ih (y + line_height)]

/-! Lemmas about the word-timing splitter. -/

theorem split_segment_into_words_length (segment : CaptionSegment) :
    (split_segment_into_words segment).length = (pySplit segment.text).length := by
  unfold split_segment_into_words
  by_cases h : (pySplit segment.text).length = 0
  · rw [if_pos h, h]
    rfl
  · rw [if_neg h]
    simp

theorem split_segment_into_words_getD (segment : CaptionSegment) (i : Nat)
    (hi : i < (pySplit segment.text).length) :
    (split_segment_into_words segment).getD i default =
      { word := (pySplit segment.text).getD i []
        start := segment.start_time + (i : ℚ) *
          ((segment.end_time - segment.start_time) / ((pySplit segment.text).length : ℚ))
        stop := segment.start_time + ((i : ℚ) + 1) *
          ((segment.end_time - segment.start_time) / ((pySplit segment.text).length : ℚ)) } := by
  unfold split_segment_into_words
  rw [if_neg (by omega)]
  rw [List.getD_eq_getElem?_getD, List.getElem?_map, List.getElem?_enum,
    List.getElem?_eq_getElem hi]
  simp [List.getD_eq_getElem?_getD, List.getElem?_eq_getElem hi]

/-! Claim theorems. -/

/-- C5: for every text, width measure and maximum width, `_wrap_text` computes
exactly the greedy-fill reference algorithm described by the specification:
words accumulate into the current line while `(current + " " + word)` still
measures within `max_width`; otherwise the current line is closed and a new
one starts with that word; a single word whose own width exceeds `max_width`
is emitted as its own line unmodified. -/
theorem wrap_text_eq_greedyFill (text : List Char) (measure : List Char → Int)
    (max_width : Int) :
    wrap_text text measure max_width = greedyFill text measure max_width := by
  unfold wrap_text greedyFill
  have h := wrapAux_eq_greedyFillAux measure max_width (pySplit text) []
  rwa [if_pos rfl] at h

/-- C9: text wrapping preserves the word sequence — concatenating the
whitespace-split words of the returned lines, in order, equals the
whitespace-split word list of the input text. -/
theorem wrap_text_words (text : List Char) (measure : List Char → Int)
    (max_width : Int) :
    (wrap_text text measure max_width).flatMap pySplit = pySplit text := by
  unfold wrap_text
  have h := wrapAux_flat_words measure max_width (pySplit text) []
    (by intro w hw; simp only [List.nil_append] at hw; exact pySplit_words text w hw)
  simpa using h

/-- C6: for every text and maximum width, and any width measure monotone
under appending a word, every line returned by `_wrap_text` measures within
`max_width`, except lines consisting of a single word (which may exceed it).
The proof shows the property holds for every measure; the claim's
monotonicity hypothesis is kept in the statement but is not needed. -/
theorem wrap_text_line_fits (text : List Char) (measure : List Char → Int)
    (max_width : Int)
    (_hmono : ∀ s w : List Char, measure s ≤ measure (s ++ ' ' :: w)) :
    ∀ line ∈ wrap_text text measure max_width,
      measure line ≤ max_width ∨ (pySplit line).length = 1 := by
  intro line hline
  exact wrapAux_line_fits measure max_width (pySplit text) []
    (by intro w hw; simp only [List.nil_append] at hw; exact pySplit_words text w hw)
    (Or.inl rfl) line hline

/-- Witness for C6 at a concrete text, the length measure and width 10. -/
theorem wrap_text_line_fits_witness :
    (fun s : List Char => (s.length : Int)) "hi ho".toList ≤ 10 ∨
      (pySplit "hi ho".toList).length = 1 :=
  wrap_text_line_fits "hi ho".toList (fun s => (s.length : Int)) 10
    (fun s w => by simp [List.length_append]; omega) "hi ho".toList (by decide)

/-- C2: the word-timing splitter returns one entry per whitespace-split word
of the segment text, in order, with `start_i = S + i·(E−S)/N` and
`end_i = S + (i+1)·(E−S)/N`, the sequence is contiguous
(`end_i = start_{i+1}`), and an empty word list yields the empty result. -/
theorem split_segment_into_words_spec (segment : CaptionSegment) :
    ((pySplit segment.text).length = 0 → split_segment_into_words segment = []) ∧
    (split_segment_into_words segment).length = (pySplit segment.text).length ∧
    (∀ i, i < (pySplit segment.text).length →
      ((split_segment_into_words segment).getD i default).word
        = (pySplit segment.text).getD i [] ∧
      ((split_segment_into_words segment).getD i default).start
        = segment.start_time + (i : ℚ) *
            ((segment.end_time - segment.start_time) / ((pySplit segment.text).length : ℚ)) ∧
      ((split_segment_into_words segment).getD i default).stop
        = segment.start_time + ((i : ℚ) + 1) *
            ((segment.end_time - segment.start_time) / ((pySplit segment.text).length : ℚ))) ∧
    (∀ i, i + 1 < (pySplit segment.text).length →
      ((split_segment_into_words segment).getD i default).stop
        = ((split_segment_into_words segment).getD (i + 1) default).start) := by
  refine ⟨?_, split_segment_into_words_length segment, ?_, ?_⟩
  · intro h0
    unfold split_segment_into_words
    rw [if_pos h0]
  · intro i hi
    rw [split_segment_into_words_getD segment i hi]
    exact ⟨rfl, rfl, rfl⟩
  · intro i hi
    rw [split_segment_into_words_getD segment i (by omega),
      split_segment_into_words_getD segment (i + 1) (by omega)]
    simp only []
    push_cast
    ring

/-- Witness for C2 on the segment `[0,10) : "Hello world test"` at index 1. -/
theorem split_segment_into_words_spec_witness :
    1 < (pySplit "Hello world test".toList).length ∧
    ((split_segment_into_words ⟨0, 10, "Hello world test".toList⟩).getD 1 default).start
      = 0 + (1 : ℚ) * ((10 - 0) / ((pySplit "Hello world test".toList).length : ℚ)) :=
  ⟨by decide,
    ((split_segment_into_words_spec ⟨0, 10, "Hello world test".toList⟩).2.2.1 1
      (by decide)).2.1⟩

/-- C3 counterexample: a `CaptionStyle` whose `position` is `"diagonal"` —
outside `{top, center, bottom}` — passes validation, because the pydantic
model places no constraint on `position`; the claim says such a construction
is rejected. -/
theorem captionStyleValid_position_cex :
    captionStyleValid ⟨"Arial".toList, 24, "#FFFFFF".toList, "#000000".toList, 2, 10,
        "diagonal".toList⟩ = true ∧
    "diagonal".toList ≠ "top".toList ∧
    "diagonal".toList ≠ "center".toList ∧
    "diagonal".toList ≠ "bottom".toList := by
  decide

/-- C3 amended: constructing a `CaptionStyle` fails exactly when a numeric
field lies outside its declared range — `font_size` outside `[8,72]`,
`stroke_width` outside `[0,10]`, `padding` outside `[0,50]` — while
`position` (like the colour strings) is not validated at all; in particular
`font_size = 100` or `stroke_width = 15` is rejected. -/
theorem captionStyleValid_iff (s : CaptionStyle) :
    (captionStyleValid s = true ↔
      (8 ≤ s.font_size ∧ s.font_size ≤ 72 ∧ 0 ≤ s.stroke_width ∧ s.stroke_width ≤ 10 ∧
        0 ≤ s.padding ∧ s.padding ≤ 50)) ∧
    (s.font_size = 100 → captionStyleValid s = false) ∧
    (s.stroke_width = 15 → captionStyleValid s = false) := by
  refine ⟨?_, ?_, ?_⟩
  · unfold captionStyleValid
    simp only [Bool.and_eq_true, decide_eq_true_eq]
    tauto
  · intro h
    unfold captionStyleValid
    rw [h]
    simp
  · intro h
    unfold captionStyleValid
    rw [h]
    simp

/-- Witness for C3's amended claim: `font_size = 100` is rejected. -/
theorem captionStyleValid_iff_witness :
    captionStyleValid ⟨"Arial".toList, 100, "#FFFFFF".toList, "#000000".toList, 2, 10,
      "bottom".toList⟩ = false :=
  (captionStyleValid_iff _).2.1 rfl

/-- C4 counterexample: `"FF0000AA"` is malformed under the claim (eight hex
digits, not six) yet `_hex_to_rgb` returns `(255,0,0)` — the characters past
offset 6 are simply ignored — contradicting "every malformed string resolves
to white". -/
theorem hex_to_rgb_trailing_cex :
    (lstripHash "FF0000AA".toList).length ≠ 6 ∧
    hex_to_rgb "FF0000AA".toList = (255, 0, 0) ∧
    hex_to_rgb "FF0000AA".toList ≠ (255, 255, 255) := by
  decide

/-- C4 amended: `_hex_to_rgb` never raises; a 6-hex-digit string (after
stripping leading `'#'`) maps to the triple of its three digit pairs; a
string resolves to white whenever one of the 2-character slices at offsets
0, 2, 4 fails to parse as a base-16 integer (rather than for every malformed
string: trailing characters past offset 6 are ignored); and the three
concrete examples of the claim hold. -/
theorem hex_to_rgb_spec :
    (∀ s : List Char, (lstripHash s).length = 6 →
      (∀ c ∈ lstripHash s, isHexDigitB c = true) →
      hex_to_rgb s = ((hexPair (lstripHash s) 0 : Int), (hexPair (lstripHash s) 2 : Int),
        (hexPair (lstripHash s) 4 : Int))) ∧
    (∀ s : List Char,
      (pyIntHex (pySlice2 (lstripHash s) 0) = none ∨
        pyIntHex (pySlice2 (lstripHash s) 2) = none ∨
        pyIntHex (pySlice2 (lstripHash s) 4) = none) →
      hex_to_rgb s = (255, 255, 255)) ∧
    hex_to_rgb "#FFFFFF".toList = (255, 255, 255) ∧
    hex_to_rgb "FF0000".toList = (255, 0, 0) ∧
    hex_to_rgb "bogus".toList = (255, 255, 255) := by
  refine ⟨?_, ?_, by decide, by decide, by decide⟩
  · intro s hlen hhex
    obtain ⟨a, b, c, d, e, f, habc⟩ := exists_six (lstripHash s) hlen
    have h0 : pySlice2 (lstripHash s) 0 = [a, b] := by rw [habc]; rfl
    have h2 : pySlice2 (lstripHash s) 2 = [c, d] := by rw [habc]; rfl
    have h4 : pySlice2 (lstripHash s) 4 = [e, f] := by rw [habc]; rfl
    have hmem : ∀ x ∈ [a, b, c, d, e, f], isHexDigitB x = true := by
      intro x hx; exact hhex x (by rw [habc]; exact hx)
    simp only [hex_to_rgb, h0, h2, h4]
    rw [pyIntHex_of_hexdigits [a, b] (by simp)
        (fun x hx => hmem x (by simp at hx; rcases hx with rfl | rfl <;> simp)),
      pyIntHex_of_hexdigits [c, d] (by simp)
        (fun x hx => hmem x (by simp at hx; rcases hx with rfl | rfl <;> simp)),
      pyIntHex_of_hexdigits [e, f] (by simp)
        (fun x hx => hmem x (by simp at hx; rcases hx with rfl | rfl <;> simp))]
    simp only [hexVal, List.foldl, hexPair, habc]
    norm_num
  · intro s h
    simp only [hex_to_rgb]
    rcases h with h | h | h
    · rw [h]
    · rw [h]
      cases pyIntHex (pySlice2 (lstripHash s) 0) <;> rfl
    · rw [h]
      cases pyIntHex (pySlice2 (lstripHash s) 0) <;>
        cases pyIntHex (pySlice2 (lstripHash s) 2) <;> rfl

/-- Witness for C4's amended claim on the 6-digit string `"#00FF7F"`. -/
theorem hex_to_rgb_spec_witness :
    hex_to_rgb "#00FF7F".toList = (0, 255, 127) := by
  have h := hex_to_rgb_spec.1 "#00FF7F".toList (by decide) (by decide)
  rw [h]
  decide

/-- C7 counterexample: the mode string `"TOP"` differs from all three literal
modes, so under the claim it should resolve to the bottom formula
`1080 − 100 − 20 = 960`; the code lowercases the mode first and returns the
top padding 20 instead. -/
theorem get_caption_position_cex :
    get_caption_position 1080 100 "TOP".toList 20 = 20 ∧
    "TOP".toList ≠ "top".toList ∧
    "TOP".toList ≠ "center".toList ∧
    "TOP".toList ≠ "bottom".toList ∧
    (20 : Int) ≠ 1080 - 100 - 20 := by
  decide

/-- C7 amended: the position resolver matches the mode case-insensitively:
it returns `padding` for modes that lowercase to `"top"`,
`⌊(video_height − caption_height)/2⌋` for modes that lowercase to
`"center"`, and `video_height − caption_height − padding` for every other
mode, with no clamping; the three concrete examples of the claim hold. -/
theorem get_caption_position_spec (video_height caption_height padding : Int)
    (position : List Char) :
    (pyLower position = "top".toList →
      get_caption_position video_height caption_height position padding = padding) ∧
    (pyLower position = "center".toList →
      get_caption_position video_height caption_height position padding
        = ⌊((video_height : ℚ) - (caption_height : ℚ)) / 2⌋) ∧
    (pyLower position ≠ "top".toList → pyLower position ≠ "center".toList →
      get_caption_position video_height caption_height position padding
        = video_height - caption_height - padding) ∧
    get_caption_position 1080 100 "top".toList 20 = 20 ∧
    get_caption_position 1080 100 "center".toList 20 = 490 ∧
    get_caption_position 1080 100 "bottom".toList 20 = 960 := by
  refine ⟨?_, ?_, ?_, by decide, by decide, by decide⟩
  · intro h
    unfold get_caption_position
    rw [if_pos h]
  · intro h
    unfold get_caption_position
    rw [if_neg (by rw [h]; decide), if_pos h]
    have hfd := Rat.floor_intCast_div_natCast (video_height - caption_height) 2
    push_cast at hfd
    rw [hfd]
  · intro h1 h2
    unfold get_caption_position
    rw [if_neg h1, if_neg h2]

/-- Witness for C7's amended claim at the mixed-case mode `"Center"`. -/
theorem get_caption_position_spec_witness :
    get_caption_position 500 101 "Center".toList 20 = ⌊((500 : ℚ) - (101 : ℚ)) / 2⌋ :=
  (get_caption_position_spec 500 101 20 "Center".toList).2.1 (by decide)

/-- C8: in `create_caption_image`, with `stroke_width > 0` the line is drawn
once per integer offset `(dx,dy)` with `dx² + dy² ≤ stroke_width²` in the
stroke colour, all before the final draw at `(0,0)` offset in the fill
colour; with `stroke_width = 0` the only draw is the fill draw. -/
theorem create_caption_image_line_ops_spec (stroke_width : Int) (sc fc : RGB)
    (x y : Int) (line : List Char) :
    (stroke_width = 0 →
      create_caption_image_line_ops stroke_width sc fc x y line
        = [⟨DrawPass.fill, line, x, y, fc⟩]) ∧
    (0 < stroke_width →
      (create_caption_image_line_ops stroke_width sc fc x y line).dropLast
          = (strokeOffsets stroke_width.toNat).map
              (fun d => ⟨DrawPass.outline, line, x + d.1, y + d.2, sc⟩) ∧
      (create_caption_image_line_ops stroke_width sc fc x y line).getLast?
          = some ⟨DrawPass.fill, line, x, y, fc⟩ ∧
      (∀ dx dy : Int,
        ((⟨DrawPass.outline, line, x + dx, y + dy, sc⟩ : DrawOp)
            ∈ (create_caption_image_line_ops stroke_width sc fc x y line).dropLast
          ↔ dx * dx + dy * dy ≤ stroke_width * stroke_width))) := by
  constructor
  · intro h0
    unfold create_caption_image_line_ops
    rw [if_neg (by omega)]
    rfl
  · intro hpos
    have htn : ((stroke_width.toNat : Nat) : Int) = stroke_width := by omega
    unfold create_caption_image_line_ops
    rw [if_pos hpos, List.dropLast_concat]
    refine ⟨rfl, by simp, ?_⟩
    intro dx dy
    constructor
    · intro hmem
      obtain ⟨d, hd, heq⟩ := List.mem_map.mp hmem
      have hx : x + d.1 = x + dx := congrArg DrawOp.x heq
      have hy : y + d.2 = y + dy := congrArg DrawOp.y heq
      have hd1 : d.1 = dx := by omega
      have hd2 : d.2 = dy := by omega
      have hb := (mem_strokeOffsets stroke_width.toNat dx dy).mp (by
        rw [← hd1, ← hd2]; exact hd)
      rwa [htn] at hb
    · intro hle
      refine List.mem_map.mpr ⟨(dx, dy), ?_, rfl⟩
      exact (mem_strokeOffsets stroke_width.toNat dx dy).mpr (by rw [htn]; exact hle)

/-- Witness for C8 at `stroke_width = 0`. -/
theorem create_caption_image_line_ops_spec_witness :
    create_caption_image_line_ops 0 (0, 0, 0) (255, 255, 255) 5 7 "hi".toList
      = [⟨DrawPass.fill, "hi".toList, 5, 7, (255, 255, 255)⟩] :=
  (create_caption_image_line_ops_spec 0 (0, 0, 0) (255, 255, 255) 5 7 "hi".toList).1 rfl

/-- C10: in word-highlight rendering every word of every wrapped line
receives exactly one fill draw, in order — so every occurrence of the
current word across all wrapped lines is highlighted, not a single target
position — and the fill colour of each drawn word is the highlight colour
exactly when the word equals `current_word` case-insensitively, the base
fill colour otherwise. -/
theorem create_word_highlighted_caption_ops_fill_spec (measure : List Char → Int)
    (text current_word : List Char) (video_width : Int) (style : CaptionStyle)
    (highlight_color : List Char) :
    ((create_word_highlighted_caption_ops measure text current_word video_width style
        highlight_color).filter (fun op => op.pass == DrawPass.fill)).map DrawOp.word
      = (wrap_text text measure (video_width * 4 / 5)).flatMap pySplit ∧
    ∀ op ∈ create_word_highlighted_caption_ops measure text current_word video_width style
        highlight_color,
      op.pass = DrawPass.fill →
        op.color = (if pyLower op.word = pyLower current_word
          then hex_to_rgb highlight_color else hex_to_rgb style.font_color) := by
  constructor
  · simp only [create_word_highlighted_caption_ops]
    exact highlightLineOps_fill_words measure style.stroke_width
      (hex_to_rgb style.font_color) (hex_to_rgb style.stroke_color)
      (hex_to_rgb highlight_color) current_word style.padding (style.font_size + 4)
      (wrap_text text measure (video_width * 4 / 5)) style.padding
  · intro op hop
    simp only [create_word_highlighted_caption_ops] at hop
    exact (highlightLineOps_color measure style.stroke_width
      (hex_to_rgb style.font_color) (hex_to_rgb style.stroke_color)
      (hex_to_rgb highlight_color) current_word style.padding (style.font_size + 4)
      (wrap_text text measure (video_width * 4 / 5)) style.padding op hop).1

/-- Witness for C10: with text `"hi"` and current word `"HI"` the single
fill draw is highlighted despite the case difference. -/
theorem create_word_highlighted_caption_ops_fill_spec_witness :
    (⟨DrawPass.fill, "hi".toList, 0, 0, hex_to_rgb "#FFFF00".toList⟩ : DrawOp).color
      = hex_to_rgb "#FFFF00".toList := by
  have h := (create_word_highlighted_caption_ops_fill_spec (fun s => (s.length : Int))
    "hi".toList "HI".toList 100
    ⟨"Arial".toList, 24, "#FFFFFF".toList, "#000000".toList, 0, 0, "bottom".toList⟩
    "#FFFF00".toList).2
    ⟨DrawPass.fill, "hi".toList, 0, 0, hex_to_rgb "#FFFF00".toList⟩ (by decide) rfl
  exact h.trans (by decide)

/-- C1 counterexample: with `font_color = "#FF0000"`, `stroke_color =
"#000000"`, `stroke_width = 1` and `highlight_color = "#FF0000"` equal to
the font colour, the word `"hi"` matches `current_word` (so the claim
demands its outline pass use the base fill colour `(255,0,0)`), yet every
outline draw uses the configured stroke colour `(0,0,0)`: the code keys the
inversion on `word_color == font_color`, not on the highlight match. -/
theorem highlight_outline_inversion_cex :
    pyLower "hi".toList = pyLower "hi".toList ∧
    hex_to_rgb "#FF0000".toList = (255, 0, 0) ∧
    hex_to_rgb "#000000".toList = (0, 0, 0) ∧
    (create_word_highlighted_caption_ops (fun s => (s.length : Int)) "hi".toList
        "hi".toList 100
        ⟨"Arial".toList, 24, "#FF0000".toList, "#000000".toList, 1, 0, "bottom".toList⟩
        "#FF0000".toList).filter (fun op => op.pass == DrawPass.outline)
      = [⟨DrawPass.outline, "hi".toList, -1, 0, (0, 0, 0)⟩,
         ⟨DrawPass.outline, "hi".toList, 0, -1, (0, 0, 0)⟩,
         ⟨DrawPass.outline, "hi".toList, 0, 0, (0, 0, 0)⟩,
         ⟨DrawPass.outline, "hi".toList, 0, 1, (0, 0, 0)⟩,
         ⟨DrawPass.outline, "hi".toList, 1, 0, (0, 0, 0)⟩] ∧
    ((0, 0, 0) : RGB) ≠ (255, 0, 0) := by
  decide

/-- C1 amended: in word-highlight rendering, an outline draw of a word uses
the base fill colour exactly when the word matches `current_word`
case-insensitively AND the highlight colour's RGB differs from the fill
RGB; otherwise (including a highlighted word whose highlight RGB equals the
fill RGB) it uses the configured stroke colour. -/
theorem highlight_outline_color_spec (measure : List Char → Int)
    (text current_word : List Char) (video_width : Int) (style : CaptionStyle)
    (highlight_color : List Char) :
    ∀ op ∈ create_word_highlighted_caption_ops measure text current_word video_width style
        highlight_color,
      op.pass = DrawPass.outline →
        op.color = (if pyLower op.word = pyLower current_word ∧
            hex_to_rgb highlight_color ≠ hex_to_rgb style.font_color
          then hex_to_rgb style.font_color else hex_to_rgb style.stroke_color) := by
  intro op hop
  simp only [create_word_highlighted_caption_ops] at hop
  exact (highlightLineOps_color measure style.stroke_width
    (hex_to_rgb style.font_color) (hex_to_rgb style.stroke_color)
    (hex_to_rgb highlight_color) current_word style.padding (style.font_size + 4)
    (wrap_text text measure (video_width * 4 / 5)) style.padding op hop).2

/-- Witness for C1's amended claim: with a highlight colour distinct from
the fill colour the matching word's outline is drawn in the fill colour. -/
theorem highlight_outline_color_spec_witness :
    (⟨DrawPass.outline, "hi".toList, -1, 0, (255, 0, 0)⟩ : DrawOp).color = (255, 0, 0) := by
  have h := highlight_outline_color_spec (fun s => (s.length : Int)) "hi".toList
    "hi".toList 100
    ⟨"Arial".toList, 24, "#FF0000".toList, "#000000".toList, 1, 0, "bottom".toList⟩
    "#FFFF00".toList
    ⟨DrawPass.outline, "hi".toList, -1, 0, (255, 0, 0)⟩ (by decide) rfl
  exact h.trans (by decide)
